import Mathlib

/-!
Verification development for the textcon reference-expansion engine
(`src/error.rs`, `src/fs_utils.rs`, `src/template.rs`).

The Rust code is shallowly embedded over an explicit filesystem model:

* a filesystem is a finite tree of named entries (`FSNode`/`FSEntries`);
  files carry their contents and a `readable` flag (an unreadable file
  models a file whose metadata is visible but whose `read_to_string`
  fails, e.g. permissions or invalid UTF-8);
* absolute paths are lists of components (`AbsPath`); raw paths may
  still contain `.` and `..` components before canonicalization;
* `std::fs::canonicalize` is modelled as component-by-component
  resolution that requires every touched path to exist (a symlink-free
  POSIX `realpath`);
* byte offsets and byte lengths are modelled as character offsets and
  character counts, which agrees with the Rust code on ASCII data;
* `Result<T, TextconError>` is `Except TextconError T`.

Definitions mirror the Rust sources function by function; doc comments
name the function each definition embeds.
-/

namespace Textcon

/-- Error taxonomy of `src/error.rs` (`TextconError`).  Payloads of the
variants used by the engine are kept; the `Io`, `Regex`, `WalkDir` and
`Json` wrappers are modelled without their payloads. -/
inductive TextconError where
  | Io : TextconError
  | FileNotFound (path : List String) : TextconError
  | DirectoryNotFound (path : List String) : TextconError
  | InvalidReference (reference : String) : TextconError
  | TemplateParse (position : Nat) (message : String) : TextconError
  | PathTraversal (path : List String) : TextconError
  | FileSizeExceeded (path : List String) (size : Nat) (max_size : Nat) : TextconError
  | Regex : TextconError
  | WalkDir : TextconError
  | Json : TextconError
deriving DecidableEq, Repr

/-- An absolute filesystem path as a list of components from the root.
Raw (pre-canonicalization) paths may contain `.` and `..` components. -/
abbrev AbsPath := List String

mutual
/-- A filesystem entry: a file with contents and a readability flag, or
a directory with named children. -/
inductive FSNode where
  | file (contents : String) (readable : Bool) : FSNode
  | dir (children : FSEntries) : FSNode

/-- The ordered list of named children of a directory (the order models
the order in which the OS yields directory entries). -/
inductive FSEntries where
  | nil : FSEntries
  | cons (name : String) (node : FSNode) (rest : FSEntries) : FSEntries
end

/-- Convert a `List` of named nodes into `FSEntries` (used to build
concrete filesystems). -/
def entriesOf : List (String × FSNode) → FSEntries
  | [] => FSEntries.nil
  | (name, node) :: rest => FSEntries.cons name node (entriesOf rest)

/-- Convert `FSEntries` back into a `List` (used in specifications). -/
def FSEntries.toList : FSEntries → List (String × FSNode)
  | FSEntries.nil => []
  | FSEntries.cons name node rest => (name, node) :: rest.toList

/-- Find a child by name among directory entries. -/
def findE : FSEntries → String → Option FSNode
  | FSEntries.nil, _ => none
  | FSEntries.cons name node rest, target =>
    if name = target then some node else findE rest target

/-- Look up the entry at an absolute path (components must be plain
names; a `.`/`..` component never matches a stored name). -/
def lookup (fs : FSNode) : AbsPath → Option FSNode
  | [] => some fs
  | c :: rest =>
    match fs with
    | FSNode.file _ _ => none
    | FSNode.dir es =>
      match findE es c with
      | some child => lookup child rest
      | none => none

/-- Worker for `canonicalize`: resolve components left to right keeping
an accumulator of already-resolved components.  `.` is skipped, `..`
pops one component (the root is its own parent, as in POSIX), and a
plain name must exist in the filesystem.  Models `Path::canonicalize`
on a symlink-free tree: it fails whenever the touched path does not
exist. -/
def canonicalizeGo (fs : FSNode) (acc : AbsPath) : List String → Option AbsPath
  | [] => some acc
  | c :: rest =>
    if c = "." then canonicalizeGo fs acc rest
    else if c = ".." then canonicalizeGo fs acc.dropLast rest
    else
      match lookup fs (acc ++ [c]) with
      | some _ => canonicalizeGo fs (acc ++ [c]) rest
      | none => none

/-- Model of `Path::canonicalize` (resolves `.` and `..`; requires the
path to exist). -/
def canonicalize (fs : FSNode) (p : AbsPath) : Option AbsPath :=
  canonicalizeGo fs [] p

/-- Component normalization of Rust `Path::components`: `.` components
are dropped (the paths handled here are absolute). -/
def normComps (p : AbsPath) : AbsPath := p.filter (fun c => c ≠ ".")

/-- Model of `Path::parent`: drop the last normalized component; `None`
at the root. -/
def parentPath (p : AbsPath) : Option AbsPath :=
  let q := normComps p
  if q = [] then none else some q.dropLast

/-- Model of `Path::file_name`: the last normalized component, unless it
is `..` (or the path is the root), in which case `None`. -/
def fileNameComp (p : AbsPath) : Option String :=
  match (normComps p).getLast? with
  | some s => if s = ".." then none else some s
  | none => none

/-- Decidable equality for `Except` results (used to evaluate concrete
scenarios). -/
instance instDecEqExcept {ε α : Type} [DecidableEq ε] [DecidableEq α] :
    DecidableEq (Except ε α) := fun x y =>
  match x, y with
  | Except.ok a, Except.ok b =>
    if h : a = b then isTrue (by rw [h]) else isFalse (fun he => h (Except.ok.injEq a b ▸ he))
  | Except.ok _, Except.error _ => isFalse (fun he => Except.noConfusion he)
  | Except.error _, Except.ok _ => isFalse (fun he => Except.noConfusion he)
  | Except.error e, Except.error f =>
    if h : e = f then isTrue (by rw [h]) else isFalse (fun he => h (Except.error.injEq e f ▸ he))

/-- Model of `str::starts_with` (kept structural so that concrete
scenarios evaluate inside the kernel). -/
def strStartsWith (s p : String) : Bool :=
  p.toList.isPrefixOf s.toList

/-- Model of `str::ends_with`. -/
def strEndsWith (s p : String) : Bool :=
  p.toList.isSuffixOf s.toList

/-- Model of `str::trim_start_matches` with a single-char pattern: drop
every leading occurrence of the character. -/
def trimLeadChar (c : Char) (s : String) : String :=
  (s.toList.dropWhile (fun a => a = c)).asString

/-- The cleaning step of `resolve_reference_path` (fs_utils.rs:274-278):
strip every leading `@`, then every leading `!`, then one run of
leading `/`, then one run of leading `\` — in that exact order. -/
def cleanRef (reference : String) : String :=
  trimLeadChar '\\' (trimLeadChar '/' (trimLeadChar '!' (trimLeadChar '@' reference)))

/-- Split a character list at every occurrence of a separator
character. -/
def splitOnChar (c : Char) : List Char → List (List Char)
  | [] => [[]]
  | a :: rest =>
    match splitOnChar c rest with
    | [] => if a = c then [[], []] else [[a]]
    | h :: t => if a = c then [] :: h :: t else (a :: h) :: t

/-- Split a path string into components on `/` (the Unix separator;
`\` is an ordinary name character on Unix), dropping empty components
as `Path::components` does. -/
def parseComponents (s : String) : List String :=
  ((splitOnChar '/' s.toList).map List.asString).filter (fun c => c ≠ "")

/-- Model of `Path::is_absolute` on Unix: the path string starts with
`/`. -/
def isAbsolutePathStr (s : String) : Bool :=
  match s.toList with
  | c :: _ => c = '/'
  | [] => false

/-- Model of `PathBuf::join`: an absolute right operand replaces the
base entirely. -/
def joinPath (base : AbsPath) (s : String) : AbsPath :=
  if isAbsolutePathStr s then parseComponents s else base ++ parseComponents s

/-- The special-casing of the cleaned reference for the current
directory (fs_utils.rs:281-285). -/
def refPathStr (reference : String) : String :=
  let cleaned := cleanRef reference
  if cleaned = "" || cleaned = "." then "." else cleaned

/-- The canonicalization-with-fallback of `resolve_reference_path`
(fs_utils.rs:291-303): canonicalize the full path; if that fails,
canonicalize the parent and re-append the file name (the fallback
handles exactly one missing trailing component). -/
def resolveCanonical (fs : FSNode) (full_path : AbsPath) : Option AbsPath :=
  match canonicalize fs full_path with
  | some c => some c
  | none =>
    match parentPath full_path with
    | some par =>
      match canonicalize fs par with
      | some pc =>
        some (pc ++ (match fileNameComp full_path with
                     | some n => [n]
                     | none => []))
      | none => none
    | none => none

/-- Embedding of `resolve_reference_path` (fs_utils.rs:272-312): clean
the reference, join onto `base_dir`, canonicalize (with the
missing-file fallback), then require the result to be prefixed by the
canonicalized base directory. -/
def resolveReferencePath (fs : FSNode) (reference : String) (base_dir : AbsPath) :
    Except TextconError AbsPath :=
  match resolveCanonical fs (joinPath base_dir (refPathStr reference)) with
  | none => Except.error TextconError.Io
  | some canonical =>
    match canonicalize fs base_dir with
    | none => Except.error TextconError.Io
    | some base_canonical =>
      if base_canonical.isPrefixOf canonical then Except.ok canonical
      else Except.error (TextconError.PathTraversal canonical)

/-- The 64 KiB default file-size ceiling (template.rs:9). -/
def MAX_FILE_SIZE : Nat := 64 * 1024

/-- Model of `usize::MAX` (used by `process_directory_deep` when no
tree-depth limit is configured). -/
def USIZE_MAX : Nat := 2 ^ 64 - 1

/-- Embedding of `TemplateConfig` (template.rs:12-24).  `base_dir` is
an absolute component path into the modelled filesystem. -/
structure TemplateConfig where
  base_dir : AbsPath
  max_tree_depth : Option Nat
  inline_contents : Bool
  add_path_comments : Bool
  max_file_size : Nat

/-- Embedding of `TemplateReference` (template.rs:39-51).  The Rust
field `end` is named `stop` because `end` is reserved in Lean. -/
structure TemplateReference where
  full_match : String
  reference : String
  start : Nat
  stop : Nat
  force : Bool
deriving DecidableEq, Repr

/-- Is this node a directory (`Path::is_dir` on an entry known to
exist)? -/
def FSNode.isDir : FSNode → Bool
  | FSNode.dir _ => true
  | FSNode.file _ _ => false

/-- Model of `path.is_dir()` through the filesystem. -/
def isDirAt (fs : FSNode) (p : AbsPath) : Bool :=
  match lookup fs p with
  | some (FSNode.dir _) => true
  | _ => false

/-- Model of `path.is_file()` through the filesystem. -/
def isFileAt (fs : FSNode) (p : AbsPath) : Bool :=
  match lookup fs p with
  | some (FSNode.file _ _) => true
  | _ => false

/-- Join path components with `/` (display of a relative path). -/
def joinComps : List String → String
  | [] => ""
  | [x] => x
  | x :: y :: rest => x ++ "/" ++ joinComps (y :: rest)

/-- Display of an absolute path (leading `/`). -/
def pathDisplay (p : AbsPath) : String :=
  "/" ++ joinComps p

/-- Model of `path.strip_prefix(base).unwrap_or(path).display()`
(template.rs:147-151 and analogous call sites). -/
def stripPrefixDisplay (base : AbsPath) (p : AbsPath) : String :=
  if base.isPrefixOf p then joinComps (p.drop base.length) else pathDisplay p

/-- Display strings of `TextconError` (the `thiserror` messages of
src/error.rs; wrapped payloads of `Io`/`Regex`/`WalkDir`/`Json` are
dropped with their payloads). -/
def errMessage : TextconError → String
  | TextconError.Io => "IO error"
  | TextconError.FileNotFound p => "File not found: " ++ pathDisplay p
  | TextconError.DirectoryNotFound p => "Directory not found: " ++ pathDisplay p
  | TextconError.InvalidReference r => "Invalid reference format: " ++ r
  | TextconError.TemplateParse pos msg =>
    "Template parsing error at position " ++ toString pos ++ ": " ++ msg
  | TextconError.PathTraversal p =>
    "Path traversal detected (trying to access files outside working directory): "
      ++ pathDisplay p
  | TextconError.FileSizeExceeded p size maxs =>
    "File size exceeds limit of " ++ toString maxs ++ " bytes: " ++ pathDisplay p
      ++ " (" ++ toString size ++ " bytes). Use @!"
      ++ (match p.getLast? with | some n => n | none => "file")
      ++ " to force inclusion."
  | TextconError.Regex => "Regex error"
  | TextconError.WalkDir => "Directory traversal error"
  | TextconError.Json => "JSON error"

/-- Embedding of `read_file_contents` (fs_utils.rs:15-29): missing or
non-file paths give `FileNotFound`; an unreadable file gives the
wrapped I/O error of `fs::read_to_string`. -/
def readFileContents (fs : FSNode) (path : AbsPath) : Except TextconError String :=
  match lookup fs path with
  | none => Except.error (TextconError.FileNotFound path)
  | some (FSNode.dir _) => Except.error (TextconError.FileNotFound path)
  | some (FSNode.file c readable) =>
    if readable then Except.ok c else Except.error TextconError.Io

/-- Model of `fs::metadata(path)?.len()`: the byte length of a file's
contents (character count on ASCII data); directories report length 0;
a missing path is an I/O error. -/
def metadataLen (fs : FSNode) (path : AbsPath) : Except TextconError Nat :=
  match lookup fs path with
  | none => Except.error TextconError.Io
  | some (FSNode.file c _) => Except.ok c.length
  | some (FSNode.dir _) => Except.ok 0

/-- Embedding of `process_file_reference` (template.rs:131-157): gate
on size unless forced, read the contents, optionally prepend the
provenance comment. -/
def processFileReference (fs : FSNode) (path : AbsPath) (config : TemplateConfig)
    (force : Bool) : Except TextconError String :=
  match metadataLen fs path with
  | Except.error e => Except.error e
  | Except.ok size =>
    if force = false ∧ config.max_file_size < size then
      Except.error (TextconError.FileSizeExceeded path size config.max_file_size)
    else
      match readFileContents fs path with
      | Except.error e => Except.error e
      | Except.ok contents =>
        if config.add_path_comments then
          Except.ok ("<!-- File: " ++ stripPrefixDisplay config.base_dir path
            ++ " -->\n" ++ contents)
        else Except.ok contents

/-- The opening-brace character, written by code point to keep braces
out of string literals. -/
def lbrace : Char := Char.ofNat 123

/-- The closing-brace character. -/
def rbrace : Char := Char.ofNat 125

/-- The ASCII whitespace characters matched by the regex class used in
`find_references` (space, tab, newline, vertical tab, form feed,
carriage return). -/
def isWsChar (c : Char) : Bool :=
  c = ' ' || c = '\t' || c = '\n' || c = Char.ofNat 11 || c = Char.ofNat 12 || c = '\r'

/-- Completion of the lazy body of the scanner pattern.  Given the
characters following the `@`/`@!` marker, find the first closing
brace; the token matches only when that brace starts a double closing
brace, the region before it is nonempty, and its trailing part is
whitespace.  Returns the captured body length and the index of the
first closing brace. -/
def tryBody (l : List Char) : Option (Nat × Nat) :=
  match l.findIdx? (fun a => a = rbrace) with
  | none => none
  | some f =>
    match l[f + 1]? with
    | some c2 =>
      if c2 = rbrace then
        let R := l.take f
        if R = [] then none
        else some (max (R.reverse.dropWhile isWsChar).length 1, f)
      else none
    | none => none

/-- One attempted match of the reference pattern
`double-brace, \s*, @, optional !, lazy non-brace body, \s*,
double-brace` at the head of the character list (the pattern of
template.rs:59, with the backtracking of the greedy `!?` made
explicit).  Returns the full match length and the captured
reference. -/
def tryMatch (l : List Char) : Option (Nat × String) :=
  match l with
  | a :: b :: rest =>
    if a = lbrace then
      if b = lbrace then
        let w := (rest.takeWhile isWsChar).length
        match rest.drop w with
        | c :: afterAt =>
          if c = '@' then
            match afterAt with
            | d :: afterBang =>
              if d = '!' then
                match tryBody afterBang with
                | some (e, f) =>
                  some (2 + w + 1 + 1 + f + 2, ('@' :: '!' :: afterBang.take e).asString)
                | none =>
                  match tryBody afterAt with
                  | some (e, f) =>
                    some (2 + w + 1 + f + 2, ('@' :: afterAt.take e).asString)
                  | none => none
              else
                match tryBody afterAt with
                | some (e, f) =>
                  some (2 + w + 1 + f + 2, ('@' :: afterAt.take e).asString)
                | none => none
            | [] => none
          else none
        | [] => none
      else none
    else none
  | _ => none

/-- The left-to-right scan of `Regex::captures_iter`: try the pattern
at each position; after a match, resume searching at the end of the
match (`skip` counts the remaining characters of the previous match,
making the matches non-overlapping). -/
def scanGo : List Char → Nat → Nat → List TemplateReference
  | [], _, _ => []
  | c :: cs, pos, skip =>
    if skip = 0 then
      match tryMatch (c :: cs) with
      | some (len, ref) =>
        { full_match := ((c :: cs).take len).asString
          reference := ref
          start := pos
          stop := pos + len
          force := strStartsWith ref "@!" } :: scanGo cs (pos + 1) (len - 1)
      | none => scanGo cs (pos + 1) 0
    else scanGo cs (pos + 1) (skip - 1)

/-- Embedding of `find_references` (template.rs:58-80).  The Rust
function returns `Result` only because the (fixed, valid) regex is
compiled at call time; scanning itself never fails, so the model is
total. -/
def findReferences (template : String) : List TemplateReference :=
  scanGo template.toList 0 0

/-- Insert an entry into a name-sorted entry list (the comparison is
byte order, as `sort_by_key(DirEntry::file_name)` uses). -/
def insertE (name : String) (node : FSNode) : FSEntries → FSEntries
  | FSEntries.nil => FSEntries.cons name node FSEntries.nil
  | FSEntries.cons n2 c2 rest =>
    if name ≤ n2 then FSEntries.cons name node (FSEntries.cons n2 c2 rest)
    else FSEntries.cons n2 c2 (insertE name node rest)

/-- Stable insertion sort by entry name (the per-directory
`entries.sort_by_key(file_name)` of walk_dir, fs_utils.rs:49). -/
def sortE : FSEntries → FSEntries
  | FSEntries.nil => FSEntries.nil
  | FSEntries.cons name node rest => insertE name node (sortE rest)

/-- The hidden-entry filter of walk_dir (fs_utils.rs:52): keep entries
whose name does not start with `.`. -/
def filterVisible : FSEntries → FSEntries
  | FSEntries.nil => FSEntries.nil
  | FSEntries.cons name node rest =>
    if strStartsWith name "." then filterVisible rest
    else FSEntries.cons name node (filterVisible rest)

mutual
/-- Apply walk_dir's per-directory preprocessing (sort by name, then
drop hidden entries; fs_utils.rs:48-52) to every directory of the
tree.  Hoisting the preprocessing out of the recursion keeps the walk
itself structurally recursive; the per-directory semantics is
unchanged because the walk visits each directory's entry list exactly
once. -/
def prepareFS : FSNode → FSNode
  | FSNode.file c r => FSNode.file c r
  | FSNode.dir es => FSNode.dir (filterVisible (sortE (prepareEntries es)))

/-- Recursively prepare each child node. -/
def prepareEntries : FSEntries → FSEntries
  | FSEntries.nil => FSEntries.nil
  | FSEntries.cons name node rest =>
    FSEntries.cons name (prepareFS node) (prepareEntries rest)
end

mutual
/-- Embedding of `walk_dir` (fs_utils.rs:35-104) on a prepared node
(see `prepareFS`): produce one output line per visited entry.  The
exclusion check (fs_utils.rs:63-83) is the glob-set test against the
path relative to the canonicalized base, with the hypothetical-child
test for directories. -/
def walkNode (fs : FSNode) (baseDir : AbsPath) (exclude : Option (AbsPath → Bool)) :
    FSNode → AbsPath → String → Option Nat → List String
  | FSNode.file _ _, _, _, _ => []
  | FSNode.dir es, dirPath, pre, remaining =>
    walkEntries fs baseDir exclude es dirPath pre remaining

/-- The entry loop of `walk_dir` (fs_utils.rs:56-101). -/
def walkEntries (fs : FSNode) (baseDir : AbsPath) (exclude : Option (AbsPath → Bool)) :
    FSEntries → AbsPath → String → Option Nat → List String
  | FSEntries.nil, _, _, _ => []
  | FSEntries.cons name child rest, dirPath, pre, remaining =>
    let isLast := match rest with
      | FSEntries.nil => true
      | FSEntries.cons _ _ _ => false
    let path := dirPath ++ [name]
    let excluded := match exclude with
      | none => false
      | some set =>
        let baseCanon := (canonicalize fs baseDir).getD baseDir
        let pathCanon := (canonicalize fs path).getD path
        let relBuf :=
          if baseCanon.isPrefixOf pathCanon then pathCanon.drop baseCanon.length else path
        set relBuf || (child.isDir && set (relBuf ++ ["__textcon_dummy__"]))
    if excluded then walkEntries fs baseDir exclude rest dirPath pre remaining
    else
      let connector := if isLast then "└── " else "├── "
      let sfx := if child.isDir then "/" else ""
      let line := pre ++ connector ++ name ++ sfx
      let sub :=
        if child.isDir then
          if remaining = some 0 then []
          else
            walkNode fs baseDir exclude child path
              (pre ++ (if isLast then "    " else "│   "))
              (remaining.map (fun r => r - 1))
        else []
      line :: (sub ++ walkEntries fs baseDir exclude rest dirPath pre remaining)
end

/-- `remaining_depth_for_children` (fs_utils.rs:31-33). -/
def remainingDepthForChildren (maxDepth : Option Nat) : Option Nat :=
  maxDepth.map (fun d => d - 1)

/-- Concatenate output lines, each terminated by a newline (modelling
the `writeln!` accumulation into the output string). -/
def joinLines (ls : List String) : String :=
  ls.foldr (fun l acc => l ++ "\n" ++ acc) ""

/-- Embedding of `generate_directory_tree` (fs_utils.rs:111-205) for
the manual (non-gitignore) traversal: existence and directory checks,
the literal root line `.`, then the `walk_dir` lines.  The
`use_gitignore = true` branch (ignore-crate traversal reassembled via
`TreeNode`) is not modelled; `template.rs` drives this function
without ignore-file semantics and no claim depends on that branch. -/
def generateDirectoryTree (fs : FSNode) (path : AbsPath) (maxDepth : Option Nat)
    (exclude : Option (AbsPath → Bool)) (baseDir : AbsPath) :
    Except TextconError String :=
  match lookup fs path with
  | none => Except.error (TextconError.DirectoryNotFound path)
  | some (FSNode.file _ _) => Except.error (TextconError.DirectoryNotFound path)
  | some (FSNode.dir es) =>
    Except.ok (joinLines ("." ::
      walkNode fs baseDir exclude (prepareFS (FSNode.dir es)) path ""
        (remainingDepthForChildren maxDepth)))

/-- Embedding of `process_directory_reference` (template.rs:160-178):
the rendered tree, optionally preceded by the provenance comment. -/
def processDirectoryReference (fs : FSNode) (path : AbsPath) (config : TemplateConfig) :
    Except TextconError String :=
  match generateDirectoryTree fs path config.max_tree_depth none config.base_dir with
  | Except.error e => Except.error e
  | Except.ok tree =>
    if config.add_path_comments then
      let path_str := stripPrefixDisplay config.base_dir path
      Except.ok ("<!-- Directory tree: " ++ (if path_str = "" then "." else path_str)
        ++ " -->\n" ++ tree)
    else Except.ok tree

mutual
/-- Model of the `walkdir::WalkDir` traversal used by
`process_directory_deep` (template.rs:189): yield the root and then,
while depth remains, every entry recursively — with no sorting and no
hidden-entry filtering. -/
def wdNode (n : FSNode) (path : AbsPath) (depthLeft : Nat) : List (AbsPath × FSNode) :=
  (path, n) ::
    (match n with
     | FSNode.dir es => if depthLeft = 0 then [] else wdList es path (depthLeft - 1)
     | FSNode.file _ _ => [])

/-- Children traversal for `wdNode`, in stored (OS) order. -/
def wdList : FSEntries → AbsPath → Nat → List (AbsPath × FSNode)
  | FSEntries.nil, _, _ => []
  | FSEntries.cons name child rest, path, d =>
    wdNode child (path ++ [name]) d ++ wdList rest path d
end

/-- Concatenate a list of strings in order (the successive `writeln!`
appends of the deep-inclusion loop). -/
def concatAll : List String → String
  | [] => ""
  | x :: rest => x ++ concatAll rest

/-- Does the final path component start with `.` (the per-file hidden
check of template.rs:206-211)? -/
def basenameHidden (p : AbsPath) : Bool :=
  match p.getLast? with
  | some n => strStartsWith n "."
  | none => false

/-- Model of `str::lines` on LF-separated text. -/
def linesOf (s : String) : List String :=
  let parts := (splitOnChar '\n' s.toList).map List.asString
  match parts.getLast? with
  | some last => if last = "" then parts.dropLast else parts
  | none => parts

/-- Join lines with `\n` (the `.join("\n")` of template.rs:226). -/
def joinWithNewline : List String → String
  | [] => ""
  | [x] => x
  | x :: y :: rest => x ++ "\n" ++ joinWithNewline (y :: rest)

/-- The comment-stripping of deep inclusion (template.rs:222-226):
drop every leading line that starts with `<!--`. -/
def deepCleaned (contents : String) : String :=
  joinWithNewline ((linesOf contents).dropWhile (fun l => strStartsWith l "<!--"))

/-- The per-entry body of the deep-inclusion loop
(template.rs:200-239): directories and hidden-named files produce
nothing; a readable file produces its fenced section; a failing read
produces the inline error note — and never an error of the whole
call. -/
def deepSection (fs : FSNode) (config : TemplateConfig) (p : AbsPath) : Option String :=
  if isFileAt fs p then
    if basenameHidden p then none
    else
      let rel := stripPrefixDisplay config.base_dir p
      match processFileReference fs p config true with
      | Except.ok contents =>
        some ("### " ++ rel ++ "\n\n```\n" ++ deepCleaned contents ++ "\n```\n" ++ "\n")
      | Except.error e =>
        some ("### " ++ rel ++ "\n\nError reading file: " ++ errMessage e ++ "\n" ++ "\n")
  else none

/-- The `<!-- Files in ... -->` header of deep inclusion
(template.rs:196-198). -/
def filesHeader (config : TemplateConfig) (path : AbsPath) : String :=
  if config.add_path_comments then
    "<!-- Files in " ++ stripPrefixDisplay config.base_dir path ++ " -->\n" ++ "\n"
  else ""

/-- Embedding of `process_directory_deep` (template.rs:181-242): the
tree rendering, a newline, the optional files header, then one section
per non-hidden file found by the depth-limited recursive walk. -/
def processDirectoryDeep (fs : FSNode) (path : AbsPath) (config : TemplateConfig) :
    Except TextconError String :=
  match processDirectoryReference fs path config with
  | Except.error e => Except.error e
  | Except.ok treePart =>
    match lookup fs path with
    | none => Except.error TextconError.Io
    | some n =>
      Except.ok (treePart ++ "\n" ++ filesHeader config path ++
        concatAll
          (((wdNode n path (config.max_tree_depth.getD USIZE_MAX)).map Prod.fst).filterMap
            (deepSection fs config)))

/-- Embedding of `process_reference` (template.rs:90-128). -/
def processReference (fs : FSNode) (reference : String) (config : TemplateConfig)
    (force : Bool) : Except TextconError String :=
  if strStartsWith reference "@" = false then
    Except.error (TextconError.InvalidReference reference)
  else
    let clean_ref :=
      if strStartsWith reference "@!" then (reference.toList.drop 2).asString
      else (reference.toList.drop 1).asString
    match resolveReferencePath fs ("@" ++ clean_ref) config.base_dir with
    | Except.error e => Except.error e
    | Except.ok path =>
      if isDirAt fs path then
        if force then processDirectoryDeep fs path config
        else processDirectoryReference fs path config
      else if isFileAt fs path then processFileReference fs path config force
      else if strEndsWith clean_ref "/" || clean_ref = "." || clean_ref = "/"
          || clean_ref = "" then
        Except.error (TextconError.DirectoryNotFound path)
      else Except.error (TextconError.FileNotFound path)

/-- Model of `String::replace_range(start..stop, repl)`. -/
def replaceRange (cs : List Char) (start stop : Nat) (repl : List Char) : List Char :=
  cs.take start ++ repl ++ cs.drop stop

/-- The substitution loop of `process_template` (template.rs:255-258):
expand each reference in the given order (the caller passes them in
reverse source order) and splice the result over the reference's
span.  The first failing expansion aborts the loop with its error. -/
def applyRefs (fs : FSNode) (config : TemplateConfig) :
    List TemplateReference → List Char → Except TextconError (List Char)
  | [], acc => Except.ok acc
  | r :: rest, acc =>
    match processReference fs r.reference config r.force with
    | Except.error e => Except.error e
    | Except.ok repl => applyRefs fs config rest (replaceRange acc r.start r.stop repl.toList)

/-- Embedding of `process_template` (template.rs:250-261): scan once,
then substitute every reference in reverse source order. -/
def processTemplate (fs : FSNode) (template : String) (config : TemplateConfig) :
    Except TextconError String :=
  match applyRefs fs config (findReferences template).reverse template.toList with
  | Except.ok cs => Except.ok cs.asString
  | Except.error e => Except.error e

mutual
/-- Number of lines the walk emits below a node: one per entry of every
visited directory, recursing while depth remains.  (A helper for
relating the walk on a prepared tree to the specification-side count
`visibleCount`.) -/
def rawCount : FSNode → Option Nat → Nat
  | FSNode.file _ _, _ => 0
  | FSNode.dir es, rem => rawCountE es rem

/-- Entry-list version of `rawCount`. -/
def rawCountE : FSEntries → Option Nat → Nat
  | FSEntries.nil, _ => 0
  | FSEntries.cons _ child rest, rem =>
    (1 + (if rem = some 0 then 0 else rawCount child (rem.map (fun r => r - 1))))
      + rawCountE rest rem
end

mutual
/-- Specification-side count, written from the spec's words: the number
of entries reachable from a directory through chains of non-hidden
names within the depth budget.  A hidden entry contributes nothing —
neither itself nor anything below it. -/
def visibleCount : FSNode → Option Nat → Nat
  | FSNode.file _ _, _ => 0
  | FSNode.dir es, rem => visibleCountE es rem

/-- Entry-list version of `visibleCount`. -/
def visibleCountE : FSEntries → Option Nat → Nat
  | FSEntries.nil, _ => 0
  | FSEntries.cons name child rest, rem =>
    (if strStartsWith name "." then 0
     else 1 + (if rem = some 0 then 0 else visibleCount child (rem.map (fun r => r - 1))))
      + visibleCountE rest rem
end

/-- Every directory level of the node lists only entries whose names do
not start with `.` (the shape `prepareFS` produces). -/
inductive AllVis : FSNode → Prop where
  | file : ∀ c r, AllVis (FSNode.file c r)
  | dir : ∀ es, (∀ e ∈ FSEntries.toList es, strStartsWith e.1 "." = false) →
      (∀ e ∈ FSEntries.toList es, AllVis e.2) → AllVis (FSNode.dir es)

/-- Concrete filesystem used for the path-resolution scenarios: a
sandbox directory `b` containing a subdirectory `a` and a file `p`,
with a file `q` outside the sandbox at the root. -/
def fsResolve : FSNode :=
  FSNode.dir (entriesOf
    [("b", FSNode.dir (entriesOf
        [("a", FSNode.dir FSEntries.nil),
         ("p", FSNode.file "inside" true)])),
     ("q", FSNode.file "outside" true)])

/-- Filesystem for the splicing scenario: the sandbox root contains one
file `t.txt` with contents `TEST`. -/
def fsSplice : FSNode :=
  FSNode.dir (entriesOf [("t.txt", FSNode.file "TEST" true)])

/-- Configuration for the splicing scenario: sandbox at the root, no
path comments. -/
def cfgSplice : TemplateConfig :=
  { base_dir := []
    max_tree_depth := some 5
    inline_contents := true
    add_path_comments := false
    max_file_size := MAX_FILE_SIZE }

/-- Filesystem for the size-gate witness: `exact.txt` holds exactly
4 bytes and `over.txt` holds 5. -/
def fsSize : FSNode :=
  FSNode.dir (entriesOf
    [("exact.txt", FSNode.file "abcd" true),
     ("over.txt", FSNode.file "abcde" true)])

/-- Configuration with a 4-byte size ceiling. -/
def cfgSize : TemplateConfig :=
  { base_dir := []
    max_tree_depth := some 5
    inline_contents := true
    add_path_comments := false
    max_file_size := 4 }

/-- Entries of the hidden-entry scenario sandbox: a visible file, a
hidden file, a hidden directory with a nested non-hidden file, and a
visible subdirectory. -/
def esHidden : FSEntries :=
  entriesOf
    [("visible.txt", FSNode.file "v" true),
     (".hidden", FSNode.file "h" true),
     (".hdir", FSNode.dir (entriesOf [("inner.txt", FSNode.file "SECRET" true)])),
     ("sub", FSNode.dir (entriesOf [("deep.txt", FSNode.file "D" true)]))]

/-- Filesystem for the hidden-entry scenarios: the sandbox `base`
holds `esHidden`. -/
def fsHidden : FSNode :=
  FSNode.dir (entriesOf [("base", FSNode.dir esHidden)])

/-- Configuration rooted at `base` with no path comments and no depth
limit. -/
def cfgHidden : TemplateConfig :=
  { base_dir := ["base"]
    max_tree_depth := none
    inline_contents := true
    add_path_comments := false
    max_file_size := 100 }

/-- Entries of the unreadable-file scenario sandbox: `bad.txt` exists
but cannot be read; `good.txt` reads fine. -/
def esUnreadable : FSEntries :=
  entriesOf
    [("bad.txt", FSNode.file "XX" false),
     ("good.txt", FSNode.file "G" true)]

/-- Filesystem for the unreadable-file scenario: the sandbox `base`
holds `esUnreadable`. -/
def fsUnreadable : FSNode :=
  FSNode.dir (entriesOf [("base", FSNode.dir esUnreadable)])

/-- Configuration rooted at `base` for the unreadable-file scenario. -/
def cfgUnreadable : TemplateConfig :=
  { base_dir := ["base"]
    max_tree_depth := none
    inline_contents := true
    add_path_comments := false
    max_file_size := 100 }

/-- The reference discovered in the template
`{{ @bad.txt }}` (braces escaped), used to instantiate the
scanner and abort theorems. -/
def refBad : TemplateReference :=
  { full_match := "\x7b\x7b @bad.txt \x7d\x7d"
    reference := "@bad.txt"
    start := 0
    stop := 14
    force := false }

/-! ## Theorems -/

/-- If some reference in the list fails to expand, the substitution
loop fails, returning the error of the first failing reference in the
traversal order. -/
theorem applyRefs_error_of_mem (fs : FSNode) (config : TemplateConfig) :
    ∀ (l : List TemplateReference) (acc : List Char),
      (∃ r ∈ l, ∃ e, processReference fs r.reference config r.force = Except.error e) →
      ∃ r2 ∈ l, ∃ e2, processReference fs r2.reference config r2.force = Except.error e2 ∧
        applyRefs fs config l acc = Except.error e2 := by
  intro l
  induction l with
  | nil =>
    intro acc h
    rcases h with ⟨r, hr, _⟩
    cases hr
  | cons r rest ih =>
    intro acc h
    cases hp : processReference fs r.reference config r.force with
    | error e =>
      exact ⟨r, List.mem_cons_self r rest, e, hp, by simp [applyRefs, hp]⟩
    | ok repl =>
      rcases h with ⟨r0, hr0, e0, he0⟩
      rcases List.mem_cons.mp hr0 with h1 | h1
      · rw [h1, hp] at he0
        exact Except.noConfusion he0
      · obtain ⟨r2, hr2, e2, he2, happ⟩ :=
          ih (replaceRange acc r.start r.stop repl.toList) ⟨r0, h1, e0, he0⟩
        refine ⟨r2, List.mem_cons_of_mem r hr2, e2, he2, ?_⟩
        simp only [applyRefs, hp]
        exact happ

/-- If the expansion of any discovered reference fails,
`process_template` returns an error that is the expansion error of one
of the discovered references. -/
theorem processTemplate_aborts (fs : FSNode) (config : TemplateConfig) (template : String)
    (r : TemplateReference) (e : TextconError)
    (hr : r ∈ findReferences template)
    (he : processReference fs r.reference config r.force = Except.error e) :
    ∃ r2 ∈ findReferences template, ∃ e2,
      processReference fs r2.reference config r2.force = Except.error e2 ∧
      processTemplate fs template config = Except.error e2 := by
  obtain ⟨r2, hr2, e2, he2, happ⟩ :=
    applyRefs_error_of_mem fs config (findReferences template).reverse template.toList
      ⟨r, List.mem_reverse.mpr hr, e, he⟩
  refine ⟨r2, List.mem_reverse.mp hr2, e2, he2, ?_⟩
  unfold processTemplate
  rw [happ]

/-- C4.  If the expansion of any discovered reference fails then
`process_template` fails with the expansion error of a discovered
reference and produces no output text at all — the `Except.error`
result carries no partial substitution. -/
theorem claim_C4 (fs : FSNode) (template : String) (config : TemplateConfig)
    (r : TemplateReference) (e : TextconError)
    (hr : r ∈ findReferences template)
    (he : processReference fs r.reference config r.force = Except.error e) :
    (∃ r2 ∈ findReferences template, ∃ e2,
       processReference fs r2.reference config r2.force = Except.error e2 ∧
       processTemplate fs template config = Except.error e2)
    ∧ ∀ s, processTemplate fs template config ≠ Except.ok s := by
  obtain ⟨r2, hr2, e2, he2, herr⟩ := processTemplate_aborts fs config template r e hr he
  refine ⟨⟨r2, hr2, e2, he2, herr⟩, fun s hcon => ?_⟩
  rw [herr] at hcon
  exact Except.noConfusion hcon

/-- C4, witness: a template referencing an unreadable file produces no
output. -/
theorem claim_C4_witness :
    processTemplate fsUnreadable "\x7b\x7b @bad.txt \x7d\x7d" cfgUnreadable ≠
      Except.ok "" :=
  (claim_C4 fsUnreadable "\x7b\x7b @bad.txt \x7d\x7d" cfgUnreadable refBad
    TextconError.Io (by decide) (by decide)).2 ""

/-- A successful pattern match always spans at least one character. -/
theorem tryMatch_len_pos (l : List Char) (len : Nat) (ref : String)
    (h : tryMatch l = some (len, ref)) : 1 ≤ len := by
  cases l with
  | nil => simp [tryMatch] at h
  | cons a t =>
    cases t with
    | nil => simp [tryMatch] at h
    | cons b rest =>
      simp only [tryMatch] at h
      repeat' split at h
      all_goals try exact Option.noConfusion h
      all_goals injection h with h1
      all_goals injection h1 with hlen href
      all_goals omega

/-- The captured reference of a successful pattern match starts with
`@`. -/
theorem tryMatch_ref_starts (l : List Char) (len : Nat) (ref : String)
    (h : tryMatch l = some (len, ref)) : strStartsWith ref "@" = true := by
  cases l with
  | nil => simp [tryMatch] at h
  | cons a t =>
    cases t with
    | nil => simp [tryMatch] at h
    | cons b rest =>
      simp only [tryMatch] at h
      repeat' split at h
      all_goals try exact Option.noConfusion h
      all_goals injection h with h1
      all_goals injection h1 with hlen href
      all_goals rw [← href]
      all_goals simp [strStartsWith, List.asString, String.toList, List.isPrefixOf]

/-- Every match produced by the scan loop starts at or after the
current position plus the pending skip. -/
theorem scanGo_start_bound (cs : List Char) :
    ∀ (pos skip : Nat), ∀ r ∈ scanGo cs pos skip, pos + skip ≤ r.start := by
  induction cs with
  | nil =>
    intro pos skip r hr
    simp [scanGo] at hr
  | cons c cs ih =>
    intro pos skip r hr
    simp only [scanGo] at hr
    by_cases hs : skip = 0
    · subst hs
      rw [if_pos rfl] at hr
      cases hm : tryMatch (c :: cs) with
      | some v =>
        obtain ⟨len, ref⟩ := v
        rw [hm] at hr
        rcases List.mem_cons.mp hr with h | h
        · rw [h]
          show pos + 0 ≤ pos
          omega
        · have := ih (pos + 1) (len - 1) r h
          omega
      | none =>
        rw [hm] at hr
        have := ih (pos + 1) 0 r hr
        omega
    · rw [if_neg hs] at hr
      have := ih (pos + 1) (skip - 1) r hr
      omega

/-- The scan loop produces matches in strictly ascending `start`
order. -/
theorem scanGo_sorted (cs : List Char) :
    ∀ (pos skip : Nat),
      List.Pairwise (fun a b : TemplateReference => a.start < b.start) (scanGo cs pos skip) := by
  induction cs with
  | nil =>
    intro pos skip
    simp [scanGo]
  | cons c cs ih =>
    intro pos skip
    simp only [scanGo]
    by_cases hs : skip = 0
    · subst hs
      rw [if_pos rfl]
      cases hm : tryMatch (c :: cs) with
      | some v =>
        obtain ⟨len, ref⟩ := v
        refine List.Pairwise.cons ?_ (ih (pos + 1) (len - 1))
        intro b hb
        have hbnd := scanGo_start_bound cs (pos + 1) (len - 1) b hb
        have hlen := tryMatch_len_pos (c :: cs) len ref hm
        show pos < b.start
        omega
      | none => exact ih (pos + 1) 0
    · rw [if_neg hs]
      exact ih (pos + 1) (skip - 1)

/-- Every match of the scan loop spans a nonempty range, is captured
with a leading `@`, and is forced exactly when the capture starts with
`@!`. -/
theorem scanGo_props (cs : List Char) :
    ∀ (pos skip : Nat), ∀ r ∈ scanGo cs pos skip,
      r.start < r.stop ∧ strStartsWith r.reference "@" = true
        ∧ r.force = strStartsWith r.reference "@!" := by
  induction cs with
  | nil =>
    intro pos skip r hr
    simp [scanGo] at hr
  | cons c cs ih =>
    intro pos skip r hr
    simp only [scanGo] at hr
    by_cases hs : skip = 0
    · subst hs
      rw [if_pos rfl] at hr
      cases hm : tryMatch (c :: cs) with
      | some v =>
        obtain ⟨len, ref⟩ := v
        rw [hm] at hr
        rcases List.mem_cons.mp hr with h | h
        · subst h
          refine ⟨?_, tryMatch_ref_starts (c :: cs) len ref hm, rfl⟩
          have := tryMatch_len_pos (c :: cs) len ref hm
          show pos < pos + len
          omega
        · exact ih (pos + 1) (len - 1) r h
      | none =>
        rw [hm] at hr
        exact ih (pos + 1) 0 r hr
    · rw [if_neg hs] at hr
      exact ih (pos + 1) (skip - 1) r hr

/-- C6.  For every input text, `find_references` succeeds (the model
is total; the Rust `Result` only wraps compilation of the fixed, valid
pattern) and returns its matches in strictly ascending `start` order,
each with `start < end`, a captured reference beginning with `@`, and
`force` set exactly when the reference begins with `@!`. -/
theorem claim_C6 (template : String) :
    List.Pairwise (fun a b : TemplateReference => a.start < b.start)
      (findReferences template)
    ∧ ∀ r ∈ findReferences template,
        r.start < r.stop ∧ strStartsWith r.reference "@" = true
          ∧ r.force = strStartsWith r.reference "@!" :=
  ⟨scanGo_sorted template.toList 0 0, fun r hr => scanGo_props template.toList 0 0 r hr⟩

/-- C6, witness: the single reference of `{{ @bad.txt }}` (braces
escaped) satisfies all scanner invariants. -/
theorem claim_C6_witness :
    refBad.start < refBad.stop ∧ strStartsWith refBad.reference "@" = true
      ∧ refBad.force = strStartsWith refBad.reference "@!" :=
  (claim_C6 "\x7b\x7b @bad.txt \x7d\x7d").2 refBad (by decide)

/-- The resolver returns `ok` only through the containment check, so an
`ok` result is always prefixed by the canonicalized base directory. -/
theorem resolve_ok_prefixed (fs : FSNode) (reference : String) (base_dir : AbsPath)
    (p : AbsPath) (h : resolveReferencePath fs reference base_dir = Except.ok p) :
    ∃ bc, canonicalize fs base_dir = some bc ∧ bc.isPrefixOf p = true := by
  unfold resolveReferencePath at h
  split at h
  · exact Except.noConfusion h
  · split at h
    · exact Except.noConfusion h
    · split at h
      · next heq hb hpre =>
        injection h with hp
        exact ⟨_, by assumption, hp ▸ hpre⟩
      · exact Except.noConfusion h

/-- The resolver fails only with `Io` (canonicalization failure) or
`PathTraversal` (containment failure). -/
theorem resolve_error_shape (fs : FSNode) (reference : String) (base_dir : AbsPath)
    (e : TextconError) (h : resolveReferencePath fs reference base_dir = Except.error e) :
    e = TextconError.Io ∨ ∃ q, e = TextconError.PathTraversal q := by
  unfold resolveReferencePath at h
  split at h
  · injection h with he; exact Or.inl he.symm
  · split at h
    · injection h with he; exact Or.inl he.symm
    · split at h
      · exact Except.noConfusion h
      · injection h with he; exact Or.inr ⟨_, he.symm⟩

/-- C1, counterexample.  A reference containing a `..` segment whose
joined path cannot be canonicalized (its parent does not exist either)
makes `resolve_reference_path` fail with the wrapped I/O error — it
neither returns a path nor fails with `PathTraversal`, although the
base directory exists and is canonical.  The claim's dichotomy
"returns a descendant or fails with PathTraversal" is therefore too
strong as stated. -/
theorem claim_C1_counterexample :
    canonicalize fsResolve ["b"] = some ["b"]
    ∧ resolveReferencePath fsResolve "@../nope/x" ["b"] = Except.error TextconError.Io
    ∧ (∀ q : AbsPath, TextconError.Io ≠ TextconError.PathTraversal q)
    ∧ (∀ p : AbsPath,
        (Except.error TextconError.Io : Except TextconError AbsPath) ≠ Except.ok p) :=
  ⟨rfl, by decide, fun _ h => TextconError.noConfusion h, fun _ h => Except.noConfusion h⟩

/-- C1, amended.  For every reference string and every base directory,
`resolve_reference_path` either returns a path that is a descendant of
(or equal to) the canonicalized base directory, or fails — with
`PathTraversal` when the canonicalized candidate falls outside the
base, and with an I/O error when canonicalization itself fails.  It
never returns a path outside the base directory. -/
theorem claim_C1_amended (fs : FSNode) (reference : String) (base_dir : AbsPath) :
    (∀ p, resolveReferencePath fs reference base_dir = Except.ok p →
       ∃ bc, canonicalize fs base_dir = some bc ∧ bc.isPrefixOf p = true)
    ∧ (∀ e, resolveReferencePath fs reference base_dir = Except.error e →
       e = TextconError.Io ∨ ∃ q, e = TextconError.PathTraversal q) :=
  ⟨fun p h => resolve_ok_prefixed fs reference base_dir p h,
   fun e h => resolve_error_shape fs reference base_dir e h⟩

/-- C1, witness for the amended theorem: instantiating the sandbox
property at the traversal attempt `@../../q` from base `b`. -/
theorem claim_C1_witness :
    TextconError.PathTraversal ["q"] = TextconError.Io
    ∨ ∃ q, TextconError.PathTraversal ["q"] = TextconError.PathTraversal q :=
  (claim_C1_amended fsResolve "@../../q" ["b"]).2 (TextconError.PathTraversal ["q"])
    (by decide)

/-- C2.  A file of exactly `max_file_size` bytes passes the size gate
without force; one byte more fails with `FileSizeExceeded` carrying
the path, the actual size and the limit, and succeeds when forced. -/
theorem claim_C2 (fs : FSNode) (config : TemplateConfig) (p q : AbsPath) (a b : String)
    (ha : lookup fs p = some (FSNode.file a true))
    (hb : lookup fs q = some (FSNode.file b true))
    (hla : a.length = config.max_file_size)
    (hlb : b.length = config.max_file_size + 1) :
    (processFileReference fs p config false).isOk = true
    ∧ processFileReference fs q config false =
        Except.error (TextconError.FileSizeExceeded q b.length config.max_file_size)
    ∧ (processFileReference fs q config true).isOk = true := by
  refine ⟨?_, ?_, ?_⟩
  · simp only [processFileReference, metadataLen, readFileContents, ha]
    split
    · next hcond => exact absurd hcond.2 (by omega)
    · rw [if_pos trivial]
      by_cases hc : config.add_path_comments <;> simp [hc, Except.isOk, Except.toBool]
  · simp only [processFileReference, metadataLen, hb]
    split
    · rfl
    · next hcond => exact absurd (And.intro (by simp) (by omega)) hcond
  · simp only [processFileReference, metadataLen, readFileContents, hb]
    split
    · next hcond => exact absurd hcond (by simp)
    · rw [if_pos trivial]
      by_cases hc : config.add_path_comments <;> simp [hc, Except.isOk, Except.toBool]

/-- C2, witness: the gate at the 4-byte boundary of `cfgSize`. -/
theorem claim_C2_witness :
    (processFileReference fsSize ["exact.txt"] cfgSize false).isOk = true
    ∧ processFileReference fsSize ["over.txt"] cfgSize false =
        Except.error (TextconError.FileSizeExceeded ["over.txt"] "abcde".length
          cfgSize.max_file_size)
    ∧ (processFileReference fsSize ["over.txt"] cfgSize true).isOk = true :=
  claim_C2 fsSize cfgSize ["exact.txt"] ["over.txt"] "abcd" "abcde"
    (by rfl) (by rfl) (by rfl) (by rfl)

/-- C3.  The template `A{{ @t.txt }}B{{ @t.txt }}C` over a sandbox
holding `t.txt` = `TEST`, with path comments off, expands to exactly
`ATESTBTESTC`: each reference span is replaced by its expansion and
all surrounding text is preserved in order. -/
theorem claim_C3 :
    processTemplate fsSplice "A\x7b\x7b @t.txt \x7d\x7dB\x7b\x7b @t.txt \x7d\x7dC"
      cfgSplice = Except.ok "ATESTBTESTC" := by
  rfl

/-- C7, counterexample.  The claim's own example list fails:
`"@\\/p"` does not resolve to `base_dir/p`.  The code strips one run
of `/` and then one run of `\`, in that order; in `"@\/p"` the
backslash shields the slash, the cleaned remainder `"/p"` is absolute,
`join` discards the base, and the sandbox check rejects the result. -/
theorem claim_C7_counterexample :
    resolveReferencePath fsResolve "@/p" ["b"] = Except.ok ["b", "p"]
    ∧ resolveReferencePath fsResolve "@\\/p" ["b"] =
        Except.error (TextconError.PathTraversal ["p"])
    ∧ resolveReferencePath fsResolve "@\\/p" ["b"] ≠ Except.ok ["b", "p"] := by
  refine ⟨by decide, by decide, by decide⟩

/-- C7, amended.  `resolve_reference_path` normalizes a reference by
stripping every leading `@`, then every leading `!`, then one run of
leading `/` characters followed by one run of leading `\` characters —
in that fixed order, not in any order.  Hence `@/p`, `@\p`, `@///p`
and `@!/\p` all resolve to `base_dir/p`, while in `@\/p` the `/`
uncovered after stripping the `\` survives, the remainder is treated
as an absolute path, and the sandbox check fails with
`PathTraversal`. -/
theorem claim_C7_amended :
    resolveReferencePath fsResolve "@/p" ["b"] = Except.ok ["b", "p"]
    ∧ resolveReferencePath fsResolve "@\\p" ["b"] = Except.ok ["b", "p"]
    ∧ resolveReferencePath fsResolve "@///p" ["b"] = Except.ok ["b", "p"]
    ∧ resolveReferencePath fsResolve "@!/\\p" ["b"] = Except.ok ["b", "p"]
    ∧ cleanRef "@@p" = "p"
    ∧ cleanRef "@!!p" = "p"
    ∧ cleanRef "@\\/p" = "/p"
    ∧ resolveReferencePath fsResolve "@\\/p" ["b"] =
        Except.error (TextconError.PathTraversal ["p"]) := by
  refine ⟨by decide, by decide, by decide, by decide, by decide, by decide, by decide,
    by decide⟩

/-- C8, counterexample.  When the missing part of the referenced
target spans more than one component (here `missing/deep.txt`, with
`missing` absent from the sandbox `b`), `resolve_reference_path` fails
with the wrapped I/O error instead of resolving a sandbox-checked
path: the fallback only canonicalizes the immediate parent, which does
not exist either. -/
theorem claim_C8_counterexample :
    resolveReferencePath fsResolve "@missing/deep.txt" ["b"] = Except.error TextconError.Io
    ∧ (∀ p : AbsPath,
        (Except.error TextconError.Io : Except TextconError AbsPath) ≠ Except.ok p) :=
  ⟨by decide, fun _ h => Except.noConfusion h⟩

/-- C8, amended.  When only the final component of the referenced
target is missing, `resolve_reference_path` canonicalizes the
immediate parent directory and re-appends the file name, so a
reference to a non-existent file whose parent exists still resolves to
a sandbox-checked path; when the missing part spans more than one
component the call fails with an I/O error. -/
theorem claim_C8_amended :
    canonicalize fsResolve ["b", "a", "new.txt"] = none
    ∧ resolveReferencePath fsResolve "@a/new.txt" ["b"] = Except.ok ["b", "a", "new.txt"]
    ∧ resolveReferencePath fsResolve "@missing/deep.txt" ["b"] =
        Except.error TextconError.Io := by
  refine ⟨by decide, by decide, by decide⟩

/-- Sorted insertion permutes: inserting an entry yields a permutation
of consing it. -/
theorem toList_insertE (name : String) (node : FSNode) :
    ∀ (es : FSEntries), (insertE name node es).toList.Perm ((name, node) :: es.toList)
  | FSEntries.nil => List.Perm.refl _
  | FSEntries.cons n2 c2 rest => by
    by_cases hle : name ≤ n2
    · simp only [insertE, if_pos hle]
      exact List.Perm.refl _
    · simp only [insertE, if_neg hle, FSEntries.toList]
      exact (List.Perm.cons _ (toList_insertE name node rest)).trans (List.Perm.swap _ _ _)

/-- The per-directory sort is a permutation. -/
theorem toList_sortE : ∀ (es : FSEntries), (sortE es).toList.Perm es.toList
  | FSEntries.nil => List.Perm.refl _
  | FSEntries.cons name node rest =>
    (toList_insertE name node (sortE rest)).trans (List.Perm.cons _ (toList_sortE rest))

/-- The hidden-entry filter is `List.filter` on the entry list. -/
theorem toList_filterVisible : ∀ (es : FSEntries),
    (filterVisible es).toList = es.toList.filter (fun e => !(strStartsWith e.1 "."))
  | FSEntries.nil => rfl
  | FSEntries.cons name node rest => by
    by_cases hh : strStartsWith name "."
    · simp [filterVisible, hh, FSEntries.toList, toList_filterVisible rest, List.filter_cons]
    · simp [filterVisible, hh, FSEntries.toList, toList_filterVisible rest, List.filter_cons]

/-- Preparing the children maps `prepareFS` over the entry list. -/
theorem toList_prepareEntries : ∀ (es : FSEntries),
    (prepareEntries es).toList = es.toList.map (fun e => (e.1, prepareFS e.2))
  | FSEntries.nil => rfl
  | FSEntries.cons name node rest => by
    simp [prepareEntries, FSEntries.toList, toList_prepareEntries rest]

/-- `rawCountE` as a sum over the entry list. -/
theorem rawCountE_eq_sum : ∀ (es : FSEntries) (rem : Option Nat),
    rawCountE es rem =
      (es.toList.map (fun e =>
        1 + (if rem = some 0 then 0 else rawCount e.2 (rem.map (fun r => r - 1))))).sum
  | FSEntries.nil, rem => rfl
  | FSEntries.cons name child rest, rem => by
    simp [rawCountE, FSEntries.toList, rawCountE_eq_sum rest rem]

/-- `visibleCountE` as a sum over the non-hidden part of the entry
list. -/
theorem visibleCountE_eq_sum : ∀ (es : FSEntries) (rem : Option Nat),
    visibleCountE es rem =
      ((es.toList.filter (fun e => !(strStartsWith e.1 "."))).map (fun e =>
        1 + (if rem = some 0 then 0 else visibleCount e.2 (rem.map (fun r => r - 1))))).sum
  | FSEntries.nil, rem => rfl
  | FSEntries.cons name child rest, rem => by
    by_cases hh : strStartsWith name "."
    · simp [visibleCountE, FSEntries.toList, hh, visibleCountE_eq_sum rest rem,
        List.filter_cons]
    · simp [visibleCountE, FSEntries.toList, hh, visibleCountE_eq_sum rest rem,
        List.filter_cons]

/-- A non-directory node contributes no walk lines. -/
theorem rawCount_of_isDir_false (n : FSNode) (rem : Option Nat) (h : n.isDir ≠ true) :
    rawCount n rem = 0 := by
  cases n with
  | file c r => rfl
  | dir es => exact absurd rfl h

mutual
/-- The walk emits exactly `rawCount` lines below a node (with no
exclusion set). -/
theorem walkNode_length (fs : FSNode) (b : AbsPath) :
    ∀ (n : FSNode) (path : AbsPath) (pre : String) (rem : Option Nat),
      (walkNode fs b none n path pre rem).length = rawCount n rem
  | FSNode.file c r, path, pre, rem => by simp [walkNode, rawCount]
  | FSNode.dir es, path, pre, rem => by
    simpa [walkNode, rawCount] using walkEntries_length fs b es path pre rem

/-- Entry-list version of `walkNode_length`. -/
theorem walkEntries_length (fs : FSNode) (b : AbsPath) :
    ∀ (es : FSEntries) (path : AbsPath) (pre : String) (rem : Option Nat),
      (walkEntries fs b none es path pre rem).length = rawCountE es rem
  | FSEntries.nil, path, pre, rem => by simp [walkEntries, rawCountE]
  | FSEntries.cons name child rest, path, pre, rem => by
    have hrest := walkEntries_length fs b rest path pre rem
    have hchild : ∀ (pre2 : String) (rem2 : Option Nat),
        (walkNode fs b none child (path ++ [name]) pre2 rem2).length = rawCount child rem2 :=
      fun pre2 rem2 => walkNode_length fs b child (path ++ [name]) pre2 rem2
    by_cases hrem : rem = some 0
    · subst hrem
      by_cases hd : child.isDir <;>
        simp [walkEntries, rawCountE, hd, hrest, hchild] <;> omega
    · by_cases hd : child.isDir
      · simp [walkEntries, rawCountE, hrem, hd, hrest, hchild]
        omega
      · have hzero := rawCount_of_isDir_false child (rem.map (fun r => r - 1)) hd
        simp [walkEntries, rawCountE, hrem, hd, hrest, hzero]
        omega
end

mutual
/-- Walking a prepared tree emits exactly the specification-side count
of visible entries: one line per entry reachable through non-hidden
names within the depth budget, and nothing at all for hidden entries
or their subtrees. -/
theorem prepareFS_count : ∀ (n : FSNode) (rem : Option Nat),
    rawCount (prepareFS n) rem = visibleCount n rem
  | FSNode.file c r, rem => by simp [prepareFS, rawCount, visibleCount]
  | FSNode.dir es, rem => by
    have hmem : ∀ e ∈ FSEntries.toList es, ∀ rem2,
        rawCount (prepareFS e.2) rem2 = visibleCount e.2 rem2 :=
      fun e he rem2 => prepareEntries_count_mem es e he rem2
    calc rawCount (prepareFS (FSNode.dir es)) rem
        = rawCountE (filterVisible (sortE (prepareEntries es))) rem := by
          simp [prepareFS, rawCount]
      _ = (((filterVisible (sortE (prepareEntries es))).toList).map (fun e =>
            1 + (if rem = some 0 then 0
                 else rawCount e.2 (rem.map (fun r => r - 1))))).sum :=
          rawCountE_eq_sum _ _
      _ = (((sortE (prepareEntries es)).toList.filter
              (fun e => !(strStartsWith e.1 "."))).map (fun e =>
            1 + (if rem = some 0 then 0
                 else rawCount e.2 (rem.map (fun r => r - 1))))).sum := by
          rw [toList_filterVisible]
      _ = (((prepareEntries es).toList.filter
              (fun e => !(strStartsWith e.1 "."))).map (fun e =>
            1 + (if rem = some 0 then 0
                 else rawCount e.2 (rem.map (fun r => r - 1))))).sum :=
          List.Perm.sum_eq (List.Perm.map _ (List.Perm.filter _ (toList_sortE _)))
      _ = (((es.toList.map (fun e => (e.1, prepareFS e.2))).filter
              (fun e => !(strStartsWith e.1 "."))).map (fun e =>
            1 + (if rem = some 0 then 0
                 else rawCount e.2 (rem.map (fun r => r - 1))))).sum := by
          rw [toList_prepareEntries]
      _ = (((es.toList.filter (fun e => !(strStartsWith e.1 "."))).map
              (fun e => (e.1, prepareFS e.2))).map (fun e =>
            1 + (if rem = some 0 then 0
                 else rawCount e.2 (rem.map (fun r => r - 1))))).sum := by
          rw [List.filter_map]
          exact congrArg List.sum
            (congrArg _ (congrArg _ (List.filter_congr (fun a _ => rfl))))
      _ = ((es.toList.filter (fun e => !(strStartsWith e.1 "."))).map (fun e =>
            1 + (if rem = some 0 then 0
                 else rawCount (prepareFS e.2) (rem.map (fun r => r - 1))))).sum := by
          rw [List.map_map]
          exact congrArg List.sum (List.map_congr_left (fun a _ => rfl))
      _ = ((es.toList.filter (fun e => !(strStartsWith e.1 "."))).map (fun e =>
            1 + (if rem = some 0 then 0
                 else visibleCount e.2 (rem.map (fun r => r - 1))))).sum := by
          refine congrArg List.sum (List.map_congr_left ?_)
          intro e he2
          rw [hmem e (List.mem_of_mem_filter he2) (rem.map (fun r => r - 1))]
      _ = visibleCountE es rem := (visibleCountE_eq_sum es rem).symm
      _ = visibleCount (FSNode.dir es) rem := by simp [visibleCount]

/-- Member form of `prepareFS_count`, giving the induction hypothesis
for every child of an entry list. -/
theorem prepareEntries_count_mem : ∀ (es : FSEntries), ∀ e ∈ FSEntries.toList es,
    ∀ rem, rawCount (prepareFS e.2) rem = visibleCount e.2 rem
  | FSEntries.nil => by
    intro e he
    cases he
  | FSEntries.cons name child rest => by
    intro e he rem
    rcases List.mem_cons.mp he with h | h
    · rw [h]
      exact prepareFS_count child rem
    · exact prepareEntries_count_mem rest e h rem
end

/-- Preparation preserves the directory flag. -/
theorem prepareFS_isDir (n : FSNode) : (prepareFS n).isDir = n.isDir := by
  cases n <;> rfl

/-- Every entry of an entry list gets its own output line, built from
the iteration prefix, a box-drawing connector, the entry name, and the
directory suffix. -/
theorem walkEntries_mem_line (fs : FSNode) (b : AbsPath) :
    ∀ (es : FSEntries) (path : AbsPath) (pre : String) (rem : Option Nat)
      (name : String) (child : FSNode),
      (name, child) ∈ FSEntries.toList es →
      ∃ conn, (conn = "├── " ∨ conn = "└── ") ∧
        (pre ++ conn ++ name ++ (if child.isDir then "/" else "")) ∈
          walkEntries fs b none es path pre rem
  | FSEntries.nil, path, pre, rem, name, child => by
    intro h
    cases h
  | FSEntries.cons n0 c0 rest, path, pre, rem, name, child => by
    intro h
    rcases List.mem_cons.mp h with h1 | h1
    · have hn : name = n0 := congrArg Prod.fst h1
      have hc : child = c0 := congrArg Prod.snd h1
      subst hn
      subst hc
      cases rest with
      | nil => exact ⟨"└── ", Or.inr rfl, by simp [walkEntries]⟩
      | cons n1 c1 rest2 => exact ⟨"├── ", Or.inl rfl, by simp [walkEntries]⟩
    · obtain ⟨conn, hconn, hmem2⟩ := walkEntries_mem_line fs b rest path pre rem name child h1
      refine ⟨conn, hconn, ?_⟩
      simp only [walkEntries]
      exact List.mem_cons_of_mem _ (List.mem_append_right _ hmem2)

/-- Entries surviving the hidden filter have non-hidden names. -/
theorem filterVisible_mem_name (es : FSEntries) (e : String × FSNode)
    (h : e ∈ (filterVisible es).toList) : strStartsWith e.1 "." = false := by
  rw [toList_filterVisible] at h
  have h2 := (List.mem_filter.mp h).2
  simpa using h2

/-- The hidden filter keeps a sublist of the entries. -/
theorem filterVisible_subset (es : FSEntries) (e : String × FSNode)
    (h : e ∈ (filterVisible es).toList) : e ∈ es.toList := by
  rw [toList_filterVisible] at h
  exact List.mem_of_mem_filter h

mutual
/-- The prepared tree lists only non-hidden names, at every level. -/
theorem prepareFS_allVis : ∀ (n : FSNode), AllVis (prepareFS n)
  | FSNode.file c r => AllVis.file c r
  | FSNode.dir es => by
    simp only [prepareFS]
    refine AllVis.dir _ (fun e he => filterVisible_mem_name _ e he) (fun e he => ?_)
    have h2 : e ∈ (sortE (prepareEntries es)).toList := filterVisible_subset _ e he
    have h3 : e ∈ (prepareEntries es).toList := (toList_sortE _).mem_iff.mp h2
    rw [toList_prepareEntries] at h3
    obtain ⟨orig, horig, heq⟩ := List.mem_map.mp h3
    have hav : AllVis (prepareFS orig.2) := prepareFS_allVis_mem es orig horig
    rw [← heq]
    exact hav

/-- Member form of `prepareFS_allVis`. -/
theorem prepareFS_allVis_mem : ∀ (es : FSEntries), ∀ e ∈ FSEntries.toList es,
    AllVis (prepareFS e.2)
  | FSEntries.nil => by
    intro e he
    cases he
  | FSEntries.cons name child rest => by
    intro e he
    rcases List.mem_cons.mp he with h | h
    · rw [h]
      exact prepareFS_allVis child
    · exact prepareFS_allVis_mem rest e h
end

mutual
/-- Every line the walk emits below an all-visible node decomposes as
iteration prefix, connector, a non-hidden entry name, and the
directory suffix.  In particular no line belongs to a hidden entry. -/
theorem walkNode_lines (fs : FSNode) (b : AbsPath) :
    ∀ (n : FSNode) (path : AbsPath) (pre : String) (rem : Option Nat),
      AllVis n → ∀ l ∈ walkNode fs b none n path pre rem,
      ∃ pre2 conn nm sfx, l = pre2 ++ conn ++ nm ++ sfx
        ∧ (conn = "├── " ∨ conn = "└── ") ∧ strStartsWith nm "." = false
        ∧ (sfx = "" ∨ sfx = "/")
  | FSNode.file c r, path, pre, rem => by
    intro _ l hl
    simp [walkNode] at hl
  | FSNode.dir es, path, pre, rem => by
    intro hall l hl
    cases hall with
    | dir es hnames hkids =>
      exact walkEntries_lines fs b es path pre rem hnames hkids l
        (by simpa [walkNode] using hl)

/-- Entry-list version of `walkNode_lines`. -/
theorem walkEntries_lines (fs : FSNode) (b : AbsPath) :
    ∀ (es : FSEntries) (path : AbsPath) (pre : String) (rem : Option Nat),
      (∀ e ∈ FSEntries.toList es, strStartsWith e.1 "." = false) →
      (∀ e ∈ FSEntries.toList es, AllVis e.2) →
      ∀ l ∈ walkEntries fs b none es path pre rem,
      ∃ pre2 conn nm sfx, l = pre2 ++ conn ++ nm ++ sfx
        ∧ (conn = "├── " ∨ conn = "└── ") ∧ strStartsWith nm "." = false
        ∧ (sfx = "" ∨ sfx = "/")
  | FSEntries.nil, path, pre, rem => by
    intro _ _ l hl
    simp [walkEntries] at hl
  | FSEntries.cons name child rest, path, pre, rem => by
    intro hnames hkids l hl
    rcases List.mem_cons.mp hl with h | h2
    · cases rest with
      | nil =>
        refine ⟨pre, "└── ", name, (if child.isDir then "/" else ""), ?_, Or.inr rfl,
          hnames (name, child) (List.mem_cons_self _ _), ?_⟩
        · exact h
        · by_cases hd : child.isDir <;> simp [hd]
      | cons n1 c1 rest2 =>
        refine ⟨pre, "├── ", name, (if child.isDir then "/" else ""), ?_, Or.inl rfl,
          hnames (name, child) (List.mem_cons_self _ _), ?_⟩
        · exact h
        · by_cases hd : child.isDir <;> simp [hd]
    · rcases List.mem_append.mp h2 with h | h
      · by_cases hd : child.isDir
        · by_cases hrem : rem = some 0
          · simp [hd, hrem] at h
          · rw [if_pos hd, if_neg hrem] at h
            exact walkNode_lines fs b child (path ++ [name]) _ (rem.map (fun r => r - 1))
              (hkids (name, child) (List.mem_cons_self _ _)) l h
        · simp [hd] at h
      · exact walkEntries_lines fs b rest path pre rem
          (fun e he => hnames e (List.mem_cons_of_mem _ he))
          (fun e he => hkids e (List.mem_cons_of_mem _ he)) l h
end

/-- C9.  For a directory rendered by the manual walk (no ignore-file
semantics, no exclusion set), the tree output consists of the root
line and exactly one line per entry reachable through non-hidden names
within the depth budget; every non-hidden direct entry contributes its
own line; and every emitted line carries a non-hidden name — a
dot-named entry contributes neither its own line nor any line for its
contents. -/
theorem claim_C9 (fs : FSNode) (path : AbsPath) (maxDepth : Option Nat) (baseDir : AbsPath)
    (es : FSEntries) (hdir : lookup fs path = some (FSNode.dir es)) :
    generateDirectoryTree fs path maxDepth none baseDir =
      Except.ok (joinLines ("." ::
        walkNode fs baseDir none (prepareFS (FSNode.dir es)) path ""
          (remainingDepthForChildren maxDepth)))
    ∧ (walkNode fs baseDir none (prepareFS (FSNode.dir es)) path ""
        (remainingDepthForChildren maxDepth)).length
        = visibleCount (FSNode.dir es) (remainingDepthForChildren maxDepth)
    ∧ (∀ name child, (name, child) ∈ FSEntries.toList es →
        strStartsWith name "." = false →
        ∃ conn, (conn = "├── " ∨ conn = "└── ") ∧
          ("" ++ conn ++ name ++ (if child.isDir then "/" else "")) ∈
            walkNode fs baseDir none (prepareFS (FSNode.dir es)) path ""
              (remainingDepthForChildren maxDepth))
    ∧ (∀ l ∈ walkNode fs baseDir none (prepareFS (FSNode.dir es)) path ""
          (remainingDepthForChildren maxDepth),
        ∃ pre2 conn nm sfx, l = pre2 ++ conn ++ nm ++ sfx
          ∧ (conn = "├── " ∨ conn = "└── ") ∧ strStartsWith nm "." = false
          ∧ (sfx = "" ∨ sfx = "/")) := by
  refine ⟨by simp [generateDirectoryTree, hdir], ?_, ?_, ?_⟩
  · rw [walkNode_length fs baseDir (prepareFS (FSNode.dir es)) path ""
      (remainingDepthForChildren maxDepth)]
    exact prepareFS_count (FSNode.dir es) (remainingDepthForChildren maxDepth)
  · intro name child hmem hnh
    have h1 : (name, prepareFS child) ∈ (prepareEntries es).toList := by
      rw [toList_prepareEntries]
      exact List.mem_map.mpr ⟨(name, child), hmem, rfl⟩
    have h2 : (name, prepareFS child) ∈ (sortE (prepareEntries es)).toList :=
      (toList_sortE (prepareEntries es)).mem_iff.mpr h1
    have h3 : (name, prepareFS child) ∈ (filterVisible (sortE (prepareEntries es))).toList := by
      rw [toList_filterVisible]
      exact List.mem_filter.mpr ⟨h2, by simp [hnh]⟩
    obtain ⟨conn, hconn, hline⟩ := walkEntries_mem_line fs baseDir
      (filterVisible (sortE (prepareEntries es))) path "" (remainingDepthForChildren maxDepth)
      name (prepareFS child) h3
    rw [prepareFS_isDir] at hline
    exact ⟨conn, hconn, by simpa [prepareFS, walkNode] using hline⟩
  · intro l hl
    exact walkNode_lines fs baseDir (prepareFS (FSNode.dir es)) path ""
      (remainingDepthForChildren maxDepth) (prepareFS_allVis (FSNode.dir es)) l hl

/-- C9, witness: in the `esHidden` sandbox the visible file gets a
line of the tree walk. -/
theorem claim_C9_witness :
    ∃ conn, (conn = "├── " ∨ conn = "└── ") ∧
      ("" ++ conn ++ "visible.txt" ++ (if (FSNode.file "v" true).isDir then "/" else "")) ∈
        walkNode fsHidden ["base"] none (prepareFS (FSNode.dir esHidden)) ["base"] ""
          (remainingDepthForChildren none) :=
  (claim_C9 fsHidden ["base"] none ["base"] esHidden (by rfl)).2.2.1 "visible.txt"
    (FSNode.file "v" true) (List.mem_cons_self _ _) (by decide)

/-- Splitting a concatenation at a member. -/
theorem concatAll_mem_split : ∀ (L : List String) (x : String), x ∈ L →
    ∃ pre post, concatAll L = pre ++ x ++ post := by
  intro L
  induction L with
  | nil =>
    intro x hx
    cases hx
  | cons y rest ih =>
    intro x hx
    rcases List.mem_cons.mp hx with h | h
    · exact ⟨"", concatAll rest, by rw [h]; simp [concatAll]⟩
    · obtain ⟨pre, post, hp⟩ := ih x h
      exact ⟨y ++ pre, post, by simp [concatAll, hp, String.append_assoc]⟩

/-- With an existing directory the tree part of deep inclusion cannot
fail. -/
theorem processDirectoryReference_isOk (fs : FSNode) (path : AbsPath)
    (config : TemplateConfig) (es : FSEntries)
    (hdir : lookup fs path = some (FSNode.dir es)) :
    (processDirectoryReference fs path config).isOk = true := by
  simp only [processDirectoryReference, generateDirectoryTree, hdir]
  by_cases hc : config.add_path_comments <;> simp [hc, Except.isOk, Except.toBool]

/-- Deep inclusion of an existing directory always returns `ok`,
whatever the readabilities and sizes of the contained files are: the
per-file loop has no failure path. -/
theorem processDirectoryDeep_isOk (fs : FSNode) (path : AbsPath)
    (config : TemplateConfig) (es : FSEntries)
    (hdir : lookup fs path = some (FSNode.dir es)) :
    (processDirectoryDeep fs path config).isOk = true := by
  cases hpdr : processDirectoryReference fs path config with
  | error e =>
    have hok := processDirectoryReference_isOk fs path config es hdir
    rw [hpdr] at hok
    simp [Except.isOk, Except.toBool] at hok
  | ok t => simp [processDirectoryDeep, hpdr, hdir, Except.isOk, Except.toBool]

/-- The per-entry section of an unreadable (but existing, non-hidden)
file is the inline error note. -/
theorem deepSection_unreadable (fs : FSNode) (config : TemplateConfig) (p : AbsPath)
    (c : String) (hp : lookup fs p = some (FSNode.file c false))
    (hvis : basenameHidden p = false) :
    deepSection fs config p = some ("### " ++ stripPrefixDisplay config.base_dir p
      ++ "\n\nError reading file: " ++ errMessage TextconError.Io ++ "\n" ++ "\n") := by
  simp [deepSection, isFileAt, hp, hvis, processFileReference, metadataLen, readFileContents]

/-- The per-entry section of a readable non-hidden file is its fenced
contents (with leading provenance comments stripped). -/
theorem deepSection_readable (fs : FSNode) (config : TemplateConfig) (p : AbsPath)
    (c : String) (hp : lookup fs p = some (FSNode.file c true))
    (hvis : basenameHidden p = false) (contents : String)
    (hc : processFileReference fs p config true = Except.ok contents) :
    deepSection fs config p = some ("### " ++ stripPrefixDisplay config.base_dir p
      ++ "\n\n```\n" ++ deepCleaned contents ++ "\n```\n" ++ "\n") := by
  simp [deepSection, isFileAt, hp, hvis, hc]

/-- Any section produced for a path visited by the deep walk appears
verbatim inside the deep-inclusion output. -/
theorem deep_contains_section (fs : FSNode) (path : AbsPath) (config : TemplateConfig)
    (es : FSEntries) (hdir : lookup fs path = some (FSNode.dir es))
    (p : AbsPath) (s : String)
    (hmem : p ∈ (wdNode (FSNode.dir es) path
        (config.max_tree_depth.getD USIZE_MAX)).map Prod.fst)
    (hs : deepSection fs config p = some s) :
    ∃ pre post, processDirectoryDeep fs path config = Except.ok (pre ++ s ++ post) := by
  cases hpdr : processDirectoryReference fs path config with
  | error e =>
    have hok := processDirectoryReference_isOk fs path config es hdir
    rw [hpdr] at hok
    simp [Except.isOk, Except.toBool] at hok
  | ok t =>
    have hsec : s ∈ ((wdNode (FSNode.dir es) path
        (config.max_tree_depth.getD USIZE_MAX)).map Prod.fst).filterMap
          (deepSection fs config) :=
      List.mem_filterMap.mpr ⟨p, hmem, hs⟩
    obtain ⟨pre1, post1, hsplit⟩ := concatAll_mem_split _ s hsec
    refine ⟨t ++ "\n" ++ filesHeader config path ++ pre1, post1, ?_⟩
    simp only [processDirectoryDeep, hpdr, hdir]
    rw [hsplit]
    simp [String.append_assoc]

/-- C5.  Deep directory inclusion never fails because of a contained
file: the call returns `ok` for every existing directory; a file whose
read fails contributes an inline error note to the output; a readable
file elsewhere in the same walk still contributes its contents
(expansion continues); whereas a failing top-level reference expansion
makes the whole `process_template` call return an error instead of any
output. -/
theorem claim_C5 (fs : FSNode) (path : AbsPath) (config : TemplateConfig) (es : FSEntries)
    (hdir : lookup fs path = some (FSNode.dir es)) :
    (processDirectoryDeep fs path config).isOk = true
    ∧ (∀ p c, p ∈ (wdNode (FSNode.dir es) path
          (config.max_tree_depth.getD USIZE_MAX)).map Prod.fst →
        lookup fs p = some (FSNode.file c false) → basenameHidden p = false →
        ∃ pre post, processDirectoryDeep fs path config =
          Except.ok (pre ++ ("### " ++ stripPrefixDisplay config.base_dir p
            ++ "\n\nError reading file: " ++ errMessage TextconError.Io ++ "\n" ++ "\n")
            ++ post))
    ∧ (∀ p c, p ∈ (wdNode (FSNode.dir es) path
          (config.max_tree_depth.getD USIZE_MAX)).map Prod.fst →
        lookup fs p = some (FSNode.file c true) → basenameHidden p = false →
        ∀ contents, processFileReference fs p config true = Except.ok contents →
        ∃ pre post, processDirectoryDeep fs path config =
          Except.ok (pre ++ ("### " ++ stripPrefixDisplay config.base_dir p
            ++ "\n\n```\n" ++ deepCleaned contents ++ "\n```\n" ++ "\n") ++ post))
    ∧ (∀ template r e, r ∈ findReferences template →
        processReference fs r.reference config r.force = Except.error e →
        ∀ s, processTemplate fs template config ≠ Except.ok s) := by
  refine ⟨processDirectoryDeep_isOk fs path config es hdir, ?_, ?_, ?_⟩
  · intro p c hm hl hv
    exact deep_contains_section fs path config es hdir p _ hm
      (deepSection_unreadable fs config p c hl hv)
  · intro p c hm hl hv contents hcont
    exact deep_contains_section fs path config es hdir p _ hm
      (deepSection_readable fs config p c hl hv contents hcont)
  · intro template r e hr he s hcon
    obtain ⟨r2, hr2, e2, he2, herr⟩ := processTemplate_aborts fs config template r e hr he
    rw [herr] at hcon
    exact Except.noConfusion hcon

/-- C5, witness: in the `esUnreadable` sandbox the deep inclusion
carries the inline error note for `bad.txt`. -/
theorem claim_C5_witness :
    ∃ pre post, processDirectoryDeep fsUnreadable ["base"] cfgUnreadable =
      Except.ok (pre ++ ("### "
        ++ stripPrefixDisplay cfgUnreadable.base_dir ["base", "bad.txt"]
        ++ "\n\nError reading file: " ++ errMessage TextconError.Io ++ "\n" ++ "\n")
        ++ post) :=
  (claim_C5 fsUnreadable ["base"] cfgUnreadable esUnreadable (by rfl)).2.1
    ["base", "bad.txt"] "XX" (by decide) (by rfl) (by rfl)

/-- C10.  The deep walk does not skip hidden directories: a file with
a non-dot basename is included in the stitched output wherever it
lives — also inside a dot-named directory — while the accompanying
tree rendering emits no line for any dot-named entry. -/
theorem claim_C10 (fs : FSNode) (path : AbsPath) (config : TemplateConfig) (es : FSEntries)
    (hdir : lookup fs path = some (FSNode.dir es))
    (p : AbsPath) (c : String)
    (hmem : p ∈ (wdNode (FSNode.dir es) path
        (config.max_tree_depth.getD USIZE_MAX)).map Prod.fst)
    (hfile : lookup fs p = some (FSNode.file c true))
    (hvis : basenameHidden p = false) :
    (∀ contents, processFileReference fs p config true = Except.ok contents →
      ∃ pre post, processDirectoryDeep fs path config =
        Except.ok (pre ++ ("### " ++ stripPrefixDisplay config.base_dir p
          ++ "\n\n```\n" ++ deepCleaned contents ++ "\n```\n" ++ "\n") ++ post))
    ∧ (∀ l ∈ walkNode fs config.base_dir none (prepareFS (FSNode.dir es)) path ""
          (remainingDepthForChildren config.max_tree_depth),
        ∃ pre2 conn nm sfx, l = pre2 ++ conn ++ nm ++ sfx
          ∧ (conn = "├── " ∨ conn = "└── ") ∧ strStartsWith nm "." = false
          ∧ (sfx = "" ∨ sfx = "/")) :=
  ⟨fun contents hcont => deep_contains_section fs path config es hdir p _ hmem
      (deepSection_readable fs config p c hfile hvis contents hcont),
   fun l hl => walkNode_lines fs config.base_dir (prepareFS (FSNode.dir es)) path ""
      (remainingDepthForChildren config.max_tree_depth) (prepareFS_allVis _) l hl⟩

/-- C10, witness: `inner.txt` inside the hidden directory `.hdir` has
its contents stitched into the deep output of the `esHidden`
sandbox. -/
theorem claim_C10_witness :
    ∃ pre post, processDirectoryDeep fsHidden ["base"] cfgHidden =
      Except.ok (pre ++ ("### "
        ++ stripPrefixDisplay cfgHidden.base_dir ["base", ".hdir", "inner.txt"]
        ++ "\n\n```\n" ++ deepCleaned "SECRET" ++ "\n```\n" ++ "\n") ++ post) :=
  (claim_C10 fsHidden ["base"] cfgHidden esHidden (by rfl)
    ["base", ".hdir", "inner.txt"] "SECRET" (by decide) (by rfl) (by rfl)).1
    "SECRET" (by rfl)

end Textcon
